import Mathlib

/-!
# Verification of the lazycommit large-diff pipeline

A shallow embedding of the diff-partitioning, summarization, message
post-processing and generation-orchestration logic of the lazycommit
repository, together with proofs and refutations of the specification
claims about it.

Strings are modelled as `List Char` (JS strings are sequences of UTF-16
code units; all relevant operations here are code-unit-wise, and every
input occurring in the claims is plain ASCII, where code units and
characters coincide).  JS numbers used by this code are non-negative
integers except for `lastIndexOf` results (which may be `-1`, modelled as
`Int`) and the fractional thresholds `0.7`, `0.6`, `0.5`, `1.1` in
comparisons, which are modelled by exact rational comparison (scaled
integer arithmetic); binary floating point could deviate only when an
index product lands exactly on a threshold, which no statement below
relies on.
-/

namespace Lazycommit

/-- The whitespace predicate used by `String.prototype.trim`, restricted to
the ASCII range (space, tab, line feed, carriage return, vertical tab,
form feed).  The non-ASCII code points that JS additionally treats as
whitespace play no role in any claim; all proofs below use only that
`'\n'`/`'\r'` are whitespace and that word, quote and period characters
are not. -/
def isWs (c : Char) : Bool :=
  c == ' ' || c == '\t' || c == '\n' || c == '\r' || c == '\x0b' || c == '\x0c'

/-- The JS regex class `\w`: ASCII letters, digits and underscore. -/
def isWordChar (c : Char) : Bool :=
  ('a' ≤ c && c ≤ 'z') || ('A' ≤ c && c ≤ 'Z') || ('0' ≤ c && c ≤ '9') || c == '_'

/-- The character class `["']` of the sanitizers (double quote or
apostrophe, U+0027). -/
def isQuote (c : Char) : Bool :=
  c == '"' || c.toNat == 39

/-- `String.prototype.trim`: drop whitespace from both ends. -/
def jsTrim (l : List Char) : List Char :=
  ((l.dropWhile isWs).reverse.dropWhile isWs).reverse

/-- `.replace(/[\n\r]/g, '')`: remove every line feed and carriage return. -/
def stripNewlines (l : List Char) : List Char :=
  l.filter (fun c => !(c == '\n' || c == '\r'))

/-- `.replace(/(\w)\.$/, '$1')`: drop a single trailing period directly
preceded by a word character. -/
def dropTrailingPeriod (l : List Char) : List Char :=
  match l.reverse with
  | p :: c :: rest => if p = '.' ∧ isWordChar c = true then (c :: rest).reverse else l
  | _ => l

/-- `sanitizeMessage` of `src/src/utils/openrouter.ts` (lines 115-119):
`message.trim().replace(/[\n\r]/g, '').replace(/(\w)\.$/, '$1')`. -/
def sanitizeMessage (l : List Char) : List Char :=
  dropTrailingPeriod (stripNewlines (jsTrim l))

/-- The effect of the leading alternative of `.replace(/^["']|["']\.?$/g, '')`:
remove one leading quote character if present. -/
def stripLeadingQuote : List Char → List Char
  | [] => []
  | c :: rest => if isQuote c then rest else c :: rest

/-- The effect of the trailing alternative of `.replace(/^["']|["']\.?$/g, '')`:
remove one trailing quote character, together with a period that directly
follows it at the end of the string. -/
def stripTrailingQuote (l : List Char) : List Char :=
  match l.reverse with
  | [] => l
  | c :: rest =>
    if isQuote c then rest.reverse
    else if c == '.' then
      match rest with
      | c₂ :: rest₂ => if isQuote c₂ then rest₂.reverse else l
      | [] => l
    else l

/-- `sanitizeMessage` of `src/unnamed/part_006` (lines 162-167), the variant
that additionally strips one layer of surrounding quotes:
`message.trim().replace(/^["']|["']\.?$/g, '').replace(/[\n\r]/g, '').replace(/(\w)\.$/, '$1')`.
The global regex removes at most one match anchored at the start and one
anchored at the end, which `stripLeadingQuote`/`stripTrailingQuote` model. -/
def sanitizeMessageP6 (l : List Char) : List Char :=
  dropTrailingPeriod (stripNewlines (stripTrailingQuote (stripLeadingQuote (jsTrim l))))

/-- `estimateTokenCount` of `src/src/utils/git.ts` (lines 113-116):
`Math.ceil(text.length / 4)`. -/
def estimateTokenCount (l : List Char) : Nat :=
  (l.length + 3) / 4

/-- `String.prototype.split(sep)` for a single-character separator:
`"".split` is `[""]`, and a trailing separator yields a trailing empty
segment, exactly as in JS. -/
def splitOnChar (sep : Char) : List Char → List (List Char)
  | [] => [[]]
  | c :: rest =>
    if c == sep then [] :: splitOnChar sep rest
    else
      match splitOnChar sep rest with
      | [] => [[c]]
      | h :: t => (c :: h) :: t

/-- `diff.split('\n')`. -/
def splitNl : List Char → List (List Char) := splitOnChar '\n'

def nl : List Char := ['\n']

/-- The loop of `chunkDiff` (`src/src/utils/git.ts` lines 126-150): fold over
the source lines, accumulating `currentChunk`/`currentTokens`; when adding a
line would exceed `maxTokens` and the current chunk is non-empty, push the
trimmed current chunk and start a new one from that line; after the loop,
push the trimmed remainder if it has content.  Each accumulated line gets a
`'\n'` re-appended, as in `currentChunk += line + '\n'`. -/
def chunkGo (maxTokens : Nat) : List (List Char) → List Char → Nat → List (List Char)
  | [], cur, _ => if jsTrim cur = [] then [] else [jsTrim cur]
  | line :: rest, cur, curTok =>
    if maxTokens < curTok + estimateTokenCount line ∧ cur ≠ [] then
      jsTrim cur :: chunkGo maxTokens rest (line ++ nl) (estimateTokenCount line)
    else
      chunkGo maxTokens rest (cur ++ line ++ nl) (curTok + estimateTokenCount line)

/-- `chunkDiff` of `src/src/utils/git.ts` (lines 119-151): if the whole diff
fits the token budget, return it as the single chunk, unchanged; otherwise
split it into lines and greedily accumulate them into trimmed chunks. -/
def chunkDiff (diff : List Char) (maxTokens : Nat) : List (List Char) :=
  if estimateTokenCount diff ≤ maxTokens then [diff]
  else chunkGo maxTokens (splitNl diff) [] 0

def diffHeaderPrefix : List Char := "diff --git ".data

/-- `line.startsWith('diff --git ')`. -/
def startsWithHeader (line : List Char) : Bool :=
  diffHeaderPrefix.isPrefixOf line

/-- The loop of `splitDiffByFile` (`src/src/utils/git.ts` lines 199-213):
accumulate lines into `current`; a line starting with `diff --git ` flushes
the trimmed accumulator (when non-empty) and starts a new segment with that
line; the trimmed remainder is flushed at the end when non-empty. -/
def splitGo : List (List Char) → List Char → List (List Char)
  | [], cur => if jsTrim cur = [] then [] else [jsTrim cur]
  | line :: rest, cur =>
    if startsWithHeader line then
      (if jsTrim cur = [] then [] else [jsTrim cur]) ++ splitGo rest (line ++ nl)
    else
      splitGo rest (cur ++ line ++ nl)

/-- `splitDiffByFile` of `src/src/utils/git.ts` (lines 199-213). -/
def splitDiffByFile (diff : List Char) : List (List Char) :=
  splitGo (splitNl diff) []

/-- The chunk computation at the head of `generateCommitMessageFromChunks`
(`src/src/utils/openrouter.ts` lines 187-190): split by file first, chunk
each file segment, and fall back to chunking the whole diff when the
per-file pass produced no chunks. -/
def computeChunks (diff : List Char) (chunkSize : Nat) : List (List Char) :=
  if (splitDiffByFile diff).flatMap (fun fd => chunkDiff fd chunkSize) = [] then
    chunkDiff diff chunkSize
  else
    (splitDiffByFile diff).flatMap (fun fd => chunkDiff fd chunkSize)

/-- `cut.lastIndexOf(s)` for a two-character search string `[a, b]`:
the largest index `i` with `l[i] = a` and `l[i+1] = b`, and `-1` if none. -/
def lastIndexOf2 (l : List Char) (a b : Char) : Int :=
  match ((List.range l.length).filter
      (fun i => l.get? i == some a && l.get? (i + 1) == some b)).getLast? with
  | some i => (i : Int)
  | none => -1

/-- `cut.lastIndexOf(c)` for a single character. -/
def lastIndexOf1 (l : List Char) (a : Char) : Int :=
  match ((List.range l.length).filter (fun i => l.get? i == some a)).getLast? with
  | some i => (i : Int)
  | none => -1

/-- `enforceMaxLength` of `src/unnamed/part_006` (lines 169-207): cascading
boundary search.  The float comparisons `x > maxLength * 0.7` / `* 0.6` /
`* 0.5` are modelled by the exact scaled comparisons `10 * x > 7 * maxLength`
etc. -/
def enforceMaxLength (message : List Char) (maxLength : Nat) : List Char :=
  if message.length ≤ maxLength then message
  else
    let cut := message.take maxLength
    let sentenceEnd := max (lastIndexOf2 cut '.' ' ')
      (max (lastIndexOf2 cut '!' ' ') (lastIndexOf2 cut '?' ' '))
    if (maxLength : Int) * 7 < sentenceEnd * 10 then cut.take (sentenceEnd + 1).toNat
    else
      let clauseEnd := max (lastIndexOf2 cut ',' ' ') (lastIndexOf2 cut ';' ' ')
      if (maxLength : Int) * 6 < clauseEnd * 10 then cut.take (clauseEnd + 1).toNat
      else
        let lastSpace := lastIndexOf1 cut ' '
        if (maxLength : Int) * 5 < lastSpace * 10 then cut.take lastSpace.toNat
        else if maxLength + 10 < message.length then cut ++ "...".data
        else cut

/-- One entry of `getDiffSummary`'s `fileStats` (`src/src/utils/git.ts`
lines 170-190): per-file path, additions, deletions and their sum.  The
counts come from `git diff --numstat` and are non-negative integers
(`NaN` is coerced to `0` by `additions || 0`). -/
structure FileStat where
  file : String
  additions : Nat
  deletions : Nat
  changes : Nat
deriving DecidableEq

/-- Insertion step of the stable descending sort by `changes`. -/
def insertDesc (x : FileStat) : List FileStat → List FileStat
  | [] => [x]
  | y :: ys => if x.changes < y.changes then y :: insertDesc x ys else x :: y :: ys

/-- `[...fileStats].sort((a, b) => b.changes - a.changes)` of
`buildCompactSummary` (`src/src/utils/git.ts` line 222).
`Array.prototype.sort` is stable (ES2019), so the result is the unique
permutation that is descending in `changes` and keeps elements with equal
`changes` in input order; a stable insertion sort computes exactly that. -/
def sortByChangesDesc : List FileStat → List FileStat
  | [] => []
  | x :: xs => insertDesc x (sortByChangesDesc xs)

/-- `sorted.slice(0, Math.max(1, maxFiles))` of `buildCompactSummary`
(line 223). -/
def topFiles (l : List FileStat) (maxFiles : Nat) : List FileStat :=
  (sortByChangesDesc l).take (max 1 maxFiles)

/-- The omitted-file count reported by `buildCompactSummary` (lines
236-238): `sorted.length - top.length` when positive, and no line (count
zero) otherwise — natural subtraction captures both cases. -/
def omittedCount (l : List FileStat) (maxFiles : Nat) : Nat :=
  (sortByChangesDesc l).length - (topFiles l maxFiles).length

/-! ## The message-generation orchestrator

The completion service is the external collaborator: it is modelled as an
oracle `Oracle` mapping the index of a call (the number of calls issued
before it) to its outcome — `none` for a call that throws (timeout, network
or provider error) and `some texts` for a response whose choices carry the
listed `message.content` strings (`c.message?.content || ''` yields `""`
for a missing content).  Each generation function threads a call log: the
list of user-turn payloads issued so far, in issuance order.  The system
prompt (`generatePrompt`) and the sampling parameters
(temperature, top_p, penalties, `max_tokens`, `n`) accompany each call but
influence neither the control flow nor the returned strings, so the log
records only the user-turn content. -/

abbrev Msg := List Char

abbrev Oracle := Nat → Option (List Msg)

/-- `Array.from(new Set(array))`: first occurrences, in order
(`deduplicateMessages`, `src/src/utils/openrouter.ts` line 121). -/
def dedupeGo (seen : List Msg) : List Msg → List Msg
  | [] => []
  | x :: xs => if x ∈ seen then dedupeGo seen xs else x :: dedupeGo (x :: seen) xs

def deduplicateMessages (l : List Msg) : List Msg := dedupeGo [] l

def natChars (n : Nat) : List Char := (toString n).data

/-- `generateCommitMessage` of `src/src/utils/openrouter.ts` (lines
123-173), relative to a call log `st`: issue one completion call whose
user-turn content is `diff`; an exception propagates (the `catch` only
rewraps it); otherwise sanitize the choices' contents, drop empties, and
return the deduplicated list when non-empty, else `[]`. -/
def generateCommitMessage (o : Oracle) (st : List Msg) (diff : Msg) :
    Except Unit (List Msg) × List Msg :=
  match o st.length with
  | none => (.error (), st ++ [diff])
  | some texts =>
    (.ok (if ((texts.map sanitizeMessage).filter (fun m => !m.isEmpty)).isEmpty then []
        else deduplicateMessages ((texts.map sanitizeMessage).filter (fun m => !m.isEmpty))),
      st ++ [diff])

/-- The per-chunk user prompt (`src/src/utils/openrouter.ts` line 214). -/
def chunkPrompt (maxLength : Nat) (chunk : Msg) : Msg :=
  "Analyze this git diff and propose a concise commit message limited to ".data
    ++ natChars maxLength
    ++ " characters. Focus on the most significant intent of the change.\n\n".data
    ++ chunk

/-- The per-chunk loop of `generateCommitMessageFromChunks`
(`src/src/utils/openrouter.ts` lines 203-241): one call per chunk; a
throwing call is logged and skipped; a successful call contributes
`sanitizeMessage(texts[0])` when the filtered choice texts are non-empty.
Returns the collected chunk messages and the final call log.  (The derived
`effectiveMaxTokens` output budget of lines 207-212 is a sampling parameter
and does not affect the result strings or the control flow.) -/
def collectChunkMessages (o : Oracle) (maxLength : Nat) :
    List Msg → List Msg → List Msg × List Msg
  | [], st => ([], st)
  | c :: rest, st =>
    match o st.length with
    | some texts =>
      match texts.filter (fun m => !m.isEmpty) with
      | t :: _ =>
        (sanitizeMessage t ::
            (collectChunkMessages o maxLength rest (st ++ [chunkPrompt maxLength c])).1,
          (collectChunkMessages o maxLength rest (st ++ [chunkPrompt maxLength c])).2)
      | [] => collectChunkMessages o maxLength rest (st ++ [chunkPrompt maxLength c])
    | none => collectChunkMessages o maxLength rest (st ++ [chunkPrompt maxLength c])

/-- `first.split(' ')` then `parts[2]?.replace('a/', '') || ''` of the
file-name fallback (`src/src/utils/openrouter.ts` lines 246-250);
`String.prototype.replace` with a string pattern removes only the first
occurrence. -/
def removeAslashOnce : List Char → List Char
  | 'a' :: '/' :: rest => rest
  | c :: rest => c :: removeAslashOnce rest
  | [] => []

def extractFileName (block : Msg) : Msg :=
  let first := block.takeWhile (fun c => !(c == '\n'))
  let parts := splitOnChar ' ' first
  match parts.get? 2 with
  | some p => removeAslashOnce p
  | none => []

/-- The `fileNames` computation of the fallback (lines 245-252):
per-file blocks, first line, third space-separated token with a leading
`a/` removed, empties dropped, first 15 kept. -/
def fileNamesOf (d : List Char) : List Msg :=
  (((splitDiffByFile d).map extractFileName).filter (fun m => !m.isEmpty)).take 15

def joinWith (sep : List Char) : List (List Char) → List Char
  | [] => []
  | [x] => x
  | x :: xs => x ++ sep ++ joinWith sep xs

/-- The fallback user prompt (lines 254-256). -/
def fallbackPrompt (maxLength : Nat) (names : List Msg) : Msg :=
  "Generate a single, concise commit message (<= ".data
    ++ natChars maxLength
    ++ " chars) summarizing changes across these files:\n".data
    ++ joinWith ['\n'] (names.map (fun f => "- ".data ++ f))

def numberList (i : Nat) : List Msg → List (List Char)
  | [] => []
  | m :: ms => (natChars i ++ ". ".data ++ m) :: numberList (i + 1) ms

/-- The synthesis user prompt (`src/src/utils/openrouter.ts` lines
286-291). -/
def combinedPrompt (msgs : List Msg) : Msg :=
  "I have ".data ++ natChars msgs.length
    ++ " commit messages for different parts of a large change:\n\n".data
    ++ joinWith ['\n'] (numberList 1 msgs)
    ++ "\n\nPlease generate a single, comprehensive commit message that captures the overall changes.\nThe message should be concise but cover the main aspects of all the changes.".data

/-- Part of `generateCommitMessageFromChunks`, the fallback branch of lines
243-282: one last call built only from the changed file names; a thrown
error is swallowed (`catch` ignores it), and when no non-empty choice text
resulted either, the function throws
`Failed to generate commit messages for any chunks`. -/
def fallbackCall (o : Oracle) (maxLength : Nat) (d : List Char) (st : List Msg) :
    Except Unit (List Msg) × List Msg :=
  match o st.length with
  | some texts =>
    match texts.filter (fun m => !m.isEmpty) with
    | t :: _ => (.ok [sanitizeMessage t],
        st ++ [fallbackPrompt maxLength (fileNamesOf d)])
    | [] => (.error (), st ++ [fallbackPrompt maxLength (fileNamesOf d)])
  | none => (.error (), st ++ [fallbackPrompt maxLength (fileNamesOf d)])

/-- Part of `generateCommitMessageFromChunks`, the synthesis branch of lines
285-311: one `generateCommitMessage` call on the numbered list of chunk
messages; on success its messages are returned, and if combining fails the
individual chunk messages are returned instead. -/
def synthesisStep (o : Oracle) (msgs : List Msg) (st : List Msg) :
    Except Unit (List Msg) × List Msg :=
  match generateCommitMessage o st (combinedPrompt msgs) with
  | (.ok r, st₂) => (.ok r, st₂)
  | (.error _, st₂) => (.ok msgs, st₂)

/-- Embedding of `generateCommitMessageFromChunks` of
`src/src/utils/openrouter.ts` (lines 175-314).  Single chunk: delegate to
`generateCommitMessage` on the whole diff (its error is rewrapped and
rethrown).  Multiple chunks: run the per-chunk loop; if it produced no
messages, issue the file-name fallback call; if it produced several, issue
the synthesis call and fall back to the unsynthesized list when that call
throws; a single message is returned as-is. -/
def generateCommitMessageFromChunks (o : Oracle) (d : List Char)
    (chunkSize maxLength : Nat) : Except Unit (List Msg) × List Msg :=
  if (computeChunks d chunkSize).length = 1 then
    generateCommitMessage o [] d
  else if (collectChunkMessages o maxLength (computeChunks d chunkSize) []).1.isEmpty then
    fallbackCall o maxLength d
      (collectChunkMessages o maxLength (computeChunks d chunkSize) []).2
  else if 1 < (collectChunkMessages o maxLength (computeChunks d chunkSize) []).1.length then
    synthesisStep o (collectChunkMessages o maxLength (computeChunks d chunkSize) []).1
      (collectChunkMessages o maxLength (computeChunks d chunkSize) []).2
  else
    (.ok (collectChunkMessages o maxLength (computeChunks d chunkSize) []).1,
      (collectChunkMessages o maxLength (computeChunks d chunkSize) []).2)

/-- `generateCommitMessageFromSummary` of `src/src/utils/openrouter.ts`
(lines 316-353): one call whose user-turn content wraps the compact
summary; choices are sanitized, empties dropped, and deduplicated. -/
def summaryPayload (maxLength : Nat) (summary : Msg) : Msg :=
  "This is a compact summary of staged changes. Generate a single, concise commit message within ".data
    ++ natChars maxLength
    ++ " characters that reflects the overall intent.\n\n".data ++ summary

def generateCommitMessageFromSummary (o : Oracle) (summary : Msg)
    (maxLength : Nat) : Except Unit (List Msg) × List Msg :=
  match o 0 with
  | none => (.error (), [summaryPayload maxLength summary])
  | some texts =>
    (.ok (if ((texts.map sanitizeMessage).filter (fun m => !m.isEmpty)).isEmpty then []
        else deduplicateMessages ((texts.map sanitizeMessage).filter (fun m => !m.isEmpty))),
      [summaryPayload maxLength summary])

/-- `generateCommitMessageFromSummary` of `src/unnamed/part_006` (lines
211-254): the user-turn content is the summary itself (`const prompt =
summary`); choices are sanitized with the quote-stripping sanitizer,
empties dropped, messages more than 10% over `maxLength` truncated by
`enforceMaxLength`, messages shorter than 10 characters dropped, and the
rest deduplicated.  The float comparison `t.length > maxLength * 1.1` is
modelled as `11 * maxLength < 10 * t.length`. -/
def generateCommitMessageFromSummaryP6 (o : Oracle) (summary : Msg)
    (maxLength : Nat) : Except Unit (List Msg) × List Msg :=
  match o 0 with
  | none => (.error (), [summary])
  | some texts =>
    (.ok (deduplicateMessages ((((texts.map sanitizeMessageP6).filter
          (fun m => !m.isEmpty)).map
        (fun t => if maxLength * 11 < t.length * 10 then enforceMaxLength t maxLength
          else t)).filter
        (fun m => decide (10 ≤ m.length)))), [summary])

/-- The strategy selection of the `lazycommit` command
(`src/src/commands/lazycommit.ts` lines 72-158): `isLargeDiff` is
`staged.diff.length > 50000`; a large diff uses the compact-summary path
when `buildCompactSummary` produced one (`compact = some s`) and the
chunked path otherwise; a small diff always goes through
`generateCommitMessageFromChunks` on the full diff. -/
def lazycommitGenerate (o : Oracle) (d : List Char) (chunkSize maxLength : Nat)
    (compact : Option Msg) : Except Unit (List Msg) × List Msg :=
  if 50000 < d.length then
    match compact with
    | some s => generateCommitMessageFromSummary o s maxLength
    | none => generateCommitMessageFromChunks o d chunkSize maxLength
  else generateCommitMessageFromChunks o d chunkSize maxLength

/-! ## Lemmas about the character classes -/

theorem isWs_newline : isWs '\n' = true := rfl

theorem isWs_cr : isWs '\r' = true := rfl

theorem not_isWordChar_of_isWs {c : Char} (h : isWs c = true) : isWordChar c = false := by
  simp only [isWs, Bool.or_eq_true, beq_iff_eq] at h
  rcases h with ((((h | h) | h) | h) | h) | h <;> subst h <;> rfl

theorem not_isWs_of_isWordChar {c : Char} (h : isWordChar c = true) : isWs c = false := by
  cases hw : isWs c with
  | false => rfl
  | true => rw [not_isWordChar_of_isWs hw] at h; cases h

theorem isWordChar_ne_period {c : Char} (h : isWordChar c = true) : c ≠ '.' := by
  intro hc; subst hc; cases h

theorem newline_beq_of_not_isWs {c : Char} (h : isWs c = false) :
    (c == '\n' || c == '\r') = false := by
  simp only [isWs, Bool.or_eq_false_iff] at h ⊢
  exact ⟨h.1.1.1.2, h.1.1.2⟩

/-! ## Lemmas about trimming -/

/-- Drop leading whitespace. -/
def trimL (l : List Char) : List Char := l.dropWhile isWs

/-- Drop trailing whitespace. -/
def trimR (l : List Char) : List Char := (l.reverse.dropWhile isWs).reverse

theorem jsTrim_eq_trimR_trimL (l : List Char) : jsTrim l = trimR (trimL l) := rfl

/-- A list has no leading whitespace when its head, if any, is not whitespace. -/
def NoLeadWs (l : List Char) : Prop := ∀ c, l.head? = some c → isWs c = false

/-- A list has no trailing whitespace when its last element, if any, is not
whitespace. -/
def NoTrailWs (l : List Char) : Prop := ∀ c, l.getLast? = some c → isWs c = false

theorem noLeadWs_trimL (l : List Char) : NoLeadWs (trimL l) := by
  induction l with
  | nil => intro c h; cases h
  | cons a t ih =>
    intro c h
    rw [trimL, List.dropWhile_cons] at h
    by_cases ha : isWs a = true
    · rw [if_pos ha] at h
      exact ih c h
    · rw [if_neg ha] at h
      simp only [List.head?_cons, Option.some.injEq] at h
      subst h
      exact Bool.eq_false_iff.mpr ha

theorem trimL_eq_self {l : List Char} (h : NoLeadWs l) : trimL l = l := by
  cases l with
  | nil => rfl
  | cons c t =>
    rw [trimL, List.dropWhile_cons, h c rfl]
    simp

theorem trimR_eq_self {l : List Char} (h : NoTrailWs l) : trimR l = l := by
  have hr : NoLeadWs l.reverse := by
    intro c hc
    exact h c (by rw [← List.head?_reverse]; exact hc)
  rw [trimR]
  rw [show l.reverse.dropWhile isWs = trimL l.reverse from rfl, trimL_eq_self hr,
    List.reverse_reverse]

theorem noTrailWs_trimR (l : List Char) : NoTrailWs (trimR l) := by
  intro c hc
  rw [trimR, List.getLast?_reverse] at hc
  exact noLeadWs_trimL l.reverse c hc

/-- Unfolding of `trimR` on a cons cell: either the tail trims away entirely
or the head is preserved. -/
theorem trimR_cons (a : Char) (t : List Char) :
    trimR (a :: t) = if trimR t = [] then (if isWs a then [] else [a])
      else a :: trimR t := by
  rw [trimR, List.reverse_cons, List.dropWhile_append]
  by_cases h : (t.reverse.dropWhile isWs).isEmpty
  · rw [if_pos h]
    have ht : trimR t = [] := by
      rw [trimR, List.isEmpty_iff.mp h, List.reverse_nil]
    rw [if_pos ht, List.dropWhile]
    cases hw : isWs a
    · simp
    · simp
  · rw [if_neg h]
    have ht : ¬ trimR t = [] := by
      intro hx
      rw [trimR] at hx
      have := congrArg List.reverse hx
      rw [List.reverse_reverse, List.reverse_nil] at this
      rw [this] at h
      exact h rfl
    rw [if_neg ht, List.reverse_append, List.reverse_cons, List.reverse_nil,
      List.nil_append, List.singleton_append, trimR]

theorem head?_trimR {l : List Char} {c : Char} (h : (trimR l).head? = some c) :
    l.head? = some c := by
  induction l with
  | nil => rw [trimR] at h; cases h
  | cons a t ih =>
    rw [trimR_cons] at h
    by_cases h1 : trimR t = []
    · rw [if_pos h1] at h
      by_cases h2 : isWs a
      · rw [if_pos h2] at h; cases h
      · rw [if_neg h2] at h
        simpa using h
    · rw [if_neg h1] at h
      simpa using h

theorem noLeadWs_jsTrim (l : List Char) : NoLeadWs (jsTrim l) := by
  intro c hc
  rw [jsTrim_eq_trimR_trimL] at hc
  exact noLeadWs_trimL l c (head?_trimR hc)

theorem noTrailWs_jsTrim (l : List Char) : NoTrailWs (jsTrim l) := by
  rw [jsTrim_eq_trimR_trimL]
  exact noTrailWs_trimR (trimL l)

theorem jsTrim_eq_self {l : List Char} (h1 : NoLeadWs l) (h2 : NoTrailWs l) :
    jsTrim l = l := by
  rw [jsTrim_eq_trimR_trimL, trimL_eq_self h1, trimR_eq_self h2]

theorem jsTrim_eq_nil_iff {l : List Char} : jsTrim l = [] ↔ ∀ c ∈ l, isWs c = true := by
  constructor
  · intro h c hc
    rw [jsTrim] at h
    have := congrArg List.reverse h
    rw [List.reverse_reverse, List.reverse_nil] at this
    rw [List.dropWhile_eq_nil_iff] at this
    have hsplit := List.takeWhile_append_dropWhile (p := isWs) (l := l)
    have hc2 : c ∈ l.takeWhile isWs ++ l.dropWhile isWs := by rw [hsplit]; exact hc
    rcases List.mem_append.mp hc2 with hm | hm
    · exact List.mem_takeWhile_imp hm
    · exact this c (List.mem_reverse.mpr hm)
  · intro h
    rw [jsTrim]
    have : l.dropWhile isWs = [] := List.dropWhile_eq_nil_iff.mpr fun x hx => h x hx
    rw [this]
    rfl

/-! ## Lemmas about the sanitizers -/

theorem noLeadWs_stripNewlines {l : List Char} (h : NoLeadWs l) :
    NoLeadWs (stripNewlines l) := by
  cases l with
  | nil => intro c hc; cases hc
  | cons a t =>
    intro c hc
    rw [stripNewlines, List.filter_cons] at hc
    have ha : isWs a = false := h a rfl
    rw [newline_beq_of_not_isWs ha] at hc
    simp only [Bool.not_false, if_pos] at hc
    simp only [List.head?_cons, Option.some.injEq] at hc
    subst hc
    exact ha

theorem stripNewlines_reverse (l : List Char) :
    (stripNewlines l).reverse = stripNewlines l.reverse := by
  rw [stripNewlines, stripNewlines, List.filter_reverse]

theorem noTrailWs_stripNewlines {l : List Char} (h : NoTrailWs l) :
    NoTrailWs (stripNewlines l) := by
  intro c hc
  rw [← List.head?_reverse, stripNewlines_reverse] at hc
  have hr : NoLeadWs l.reverse := by
    intro x hx
    rw [List.head?_reverse] at hx
    exact h x hx
  exact noLeadWs_stripNewlines hr c hc

theorem mem_stripNewlines {c : Char} {l : List Char} (h : c ∈ stripNewlines l) :
    c ∈ l := List.mem_of_mem_filter h

theorem beq_newline_of_mem_stripNewlines {c : Char} {l : List Char}
    (h : c ∈ stripNewlines l) : (c == '\n' || c == '\r') = false := by
  have := List.of_mem_filter h
  simpa using this

theorem stripNewlines_eq_self {l : List Char}
    (h : ∀ c ∈ l, (c == '\n' || c == '\r') = false) : stripNewlines l = l := by
  rw [stripNewlines]
  apply List.filter_eq_self.mpr
  intro a ha
  rw [h a ha]
  rfl

/-- Case analysis for `dropTrailingPeriod`: the result is the input, or the
input ends in a word character followed by a period and the result drops
that period. -/
theorem dropTrailingPeriod_cases (l : List Char) :
    dropTrailingPeriod l = l ∨
      ∃ c rest, isWordChar c = true ∧ l.reverse = '.' :: c :: rest ∧
        dropTrailingPeriod l = (c :: rest).reverse := by
  cases hr : l.reverse with
  | nil => exact Or.inl (by simp [dropTrailingPeriod, hr])
  | cons p tl =>
    cases tl with
    | nil => exact Or.inl (by simp [dropTrailingPeriod, hr])
    | cons c rest =>
      by_cases hc : p = '.' ∧ isWordChar c = true
      · obtain ⟨hp, hw⟩ := hc
        subst hp
        refine Or.inr ⟨c, rest, hw, rfl, ?_⟩
        simp [dropTrailingPeriod, hr, hw]
      · exact Or.inl (by simp [dropTrailingPeriod, hr, hc])

theorem mem_dropTrailingPeriod {c : Char} {l : List Char}
    (h : c ∈ dropTrailingPeriod l) : c ∈ l := by
  rcases dropTrailingPeriod_cases l with hid | ⟨a, rest, _, hrev, hdrop⟩
  · rw [hid] at h
    exact h
  · rw [hdrop] at h
    have : l = (c :: l.tail).reverse ∨ True := Or.inr trivial
    have hl : l = ('.' :: a :: rest).reverse := by
      rw [← hrev, List.reverse_reverse]
    rw [hl]
    rw [List.mem_reverse] at h ⊢
    exact List.mem_cons_of_mem _ h

theorem noLeadWs_dropTrailingPeriod {l : List Char} (h : NoLeadWs l) :
    NoLeadWs (dropTrailingPeriod l) := by
  rcases dropTrailingPeriod_cases l with hid | ⟨a, rest, _, hrev, hdrop⟩
  · rw [hid]; exact h
  · intro c hc
    rw [hdrop] at hc
    have hl : l = (a :: rest).reverse ++ ['.'] := by
      have := congrArg List.reverse hrev
      rw [List.reverse_reverse] at this
      rw [this, List.reverse_cons]
    apply h c
    rw [hl]
    cases hx : (a :: rest).reverse with
    | nil => exact absurd (congrArg List.length hx) (by simp)
    | cons y ys =>
      rw [hx] at hc
      simp only [List.cons_append, List.head?_cons] at hc ⊢
      exact hc

theorem noTrailWs_dropTrailingPeriod {l : List Char} (h : NoTrailWs l) :
    NoTrailWs (dropTrailingPeriod l) := by
  rcases dropTrailingPeriod_cases l with hid | ⟨a, rest, hw, hrev, hdrop⟩
  · rw [hid]; exact h
  · intro c hc
    rw [hdrop, List.getLast?_reverse, List.head?_cons, Option.some.injEq] at hc
    subst hc
    exact not_isWs_of_isWordChar hw

theorem dropTrailingPeriod_idem (l : List Char) :
    dropTrailingPeriod (dropTrailingPeriod l) = dropTrailingPeriod l := by
  rcases dropTrailingPeriod_cases l with hid | ⟨a, rest, hw, _, hdrop⟩
  · rw [hid, hid]
  · rw [hdrop]
    have ha : a ≠ '.' := isWordChar_ne_period hw
    have hrr : ((a :: rest).reverse).reverse = a :: rest := List.reverse_reverse _
    cases rest with
    | nil => simp [dropTrailingPeriod, hrr]
    | cons b t => simp [dropTrailingPeriod, hrr, ha]

/-- Identity of `jsTrim` on any sanitized message: the sanitizers emit
strings without leading or trailing whitespace. -/
theorem jsTrim_sanitizeMessage (l : List Char) :
    jsTrim (sanitizeMessage l) = sanitizeMessage l := by
  apply jsTrim_eq_self
  · exact noLeadWs_dropTrailingPeriod (noLeadWs_stripNewlines (noLeadWs_jsTrim l))
  · exact noTrailWs_dropTrailingPeriod (noTrailWs_stripNewlines (noTrailWs_jsTrim l))

theorem newline_not_mem_sanitizeMessage {c : Char} {l : List Char}
    (h : c ∈ sanitizeMessage l) : (c == '\n' || c == '\r') = false :=
  beq_newline_of_mem_stripNewlines (mem_dropTrailingPeriod h)

theorem stripNewlines_sanitizeMessage (l : List Char) :
    stripNewlines (sanitizeMessage l) = sanitizeMessage l :=
  stripNewlines_eq_self fun _ hc => newline_not_mem_sanitizeMessage hc

theorem sanitizeMessage_comp (l : List Char) :
    sanitizeMessage (sanitizeMessage l) =
      dropTrailingPeriod (sanitizeMessage l) := by
  show dropTrailingPeriod (stripNewlines (jsTrim (sanitizeMessage l))) = _
  rw [jsTrim_sanitizeMessage, stripNewlines_sanitizeMessage]

theorem newline_not_mem_sanitizeMessageP6 {c : Char} {l : List Char}
    (h : c ∈ sanitizeMessageP6 l) : (c == '\n' || c == '\r') = false :=
  beq_newline_of_mem_stripNewlines (mem_dropTrailingPeriod h)

/-! ## Lemmas about the diff partitioner -/

/-- Complement of the whitespace class; the non-whitespace content of a
diff is its `nonWs`-filtered character sequence. -/
def nonWs (c : Char) : Bool := !isWs c

/-- Reassembly of the line accumulator: every line with its re-appended
newline, concatenated. -/
def flattenNl (ls : List (List Char)) : List Char :=
  (ls.map (fun x => x ++ nl)).flatten

theorem flattenNl_nil : flattenNl [] = [] := rfl

theorem flattenNl_cons (x : List Char) (ls : List (List Char)) :
    flattenNl (x :: ls) = (x ++ nl) ++ flattenNl ls := by
  rw [flattenNl, List.map_cons, List.flatten_cons, flattenNl]

theorem splitOnChar_ne_nil (sep : Char) (l : List Char) : splitOnChar sep l ≠ [] := by
  cases l with
  | nil => simp [splitOnChar]
  | cons c rest =>
    rw [splitOnChar]
    by_cases h : (c == sep) = true
    · rw [if_pos h]
      simp
    · rw [if_neg h]
      cases hs : splitOnChar sep rest <;> simp

theorem flattenNl_splitNl (d : List Char) : flattenNl (splitNl d) = d ++ nl := by
  induction d with
  | nil =>
    rw [show splitNl [] = [[]] from rfl, flattenNl_cons, flattenNl_nil]
    simp
  | cons c rest ih =>
    rw [splitNl, splitOnChar]
    by_cases h : (c == '\n') = true
    · rw [if_pos h, flattenNl_cons]
      rw [show splitOnChar '\n' rest = splitNl rest from rfl, ih]
      have hc : c = '\n' := by simpa using h
      subst hc
      simp [nl]
    · rw [if_neg h]
      obtain ⟨hh, ht, hs⟩ : ∃ hh ht, splitOnChar '\n' rest = hh :: ht := by
        cases hs : splitOnChar '\n' rest with
        | nil => exact absurd hs (splitOnChar_ne_nil _ _)
        | cons a b => exact ⟨a, b, rfl⟩
      rw [hs, flattenNl_cons]
      have ih2 : flattenNl (hh :: ht) = rest ++ nl := by rw [← hs]; exact ih
      rw [flattenNl_cons] at ih2
      simp only [List.cons_append, List.append_assoc] at ih2 ⊢
      rw [ih2]

theorem filter_nonWs_trimL (l : List Char) :
    (trimL l).filter nonWs = l.filter nonWs := by
  induction l with
  | nil => rfl
  | cons a t ih =>
    rw [trimL, List.dropWhile_cons]
    by_cases h : isWs a = true
    · rw [if_pos h, List.filter_cons]
      have : nonWs a = false := by rw [nonWs, h]; rfl
      rw [this]
      simpa using ih
    · rw [if_neg h]

theorem filter_nonWs_trimR (l : List Char) :
    (trimR l).filter nonWs = l.filter nonWs := by
  rw [trimR]
  rw [List.filter_reverse]
  rw [show l.reverse.dropWhile isWs = trimL l.reverse from rfl, filter_nonWs_trimL,
    List.filter_reverse, List.reverse_reverse]

theorem filter_nonWs_jsTrim (l : List Char) :
    (jsTrim l).filter nonWs = l.filter nonWs := by
  rw [jsTrim_eq_trimR_trimL, filter_nonWs_trimR, filter_nonWs_trimL]

theorem filter_nonWs_nil_of_jsTrim_nil {l : List Char} (h : jsTrim l = []) :
    l.filter nonWs = [] := by
  rw [List.filter_eq_nil_iff]
  intro a ha
  rw [nonWs, jsTrim_eq_nil_iff.mp h a ha]
  simp

theorem filter_nonWs_nl : nl.filter nonWs = [] := rfl

theorem filter_flatten_chunkGo (B : Nat) (lines : List (List Char))
    (cur : List Char) (tok : Nat) :
    ((chunkGo B lines cur tok).flatten).filter nonWs
      = (cur ++ flattenNl lines).filter nonWs := by
  induction lines generalizing cur tok with
  | nil =>
    rw [chunkGo, flattenNl_nil, List.append_nil]
    by_cases h : jsTrim cur = []
    · rw [if_pos h]
      rw [List.flatten_nil, List.filter_nil, filter_nonWs_nil_of_jsTrim_nil h]
    · rw [if_neg h]
      rw [show ([jsTrim cur] : List (List Char)).flatten = jsTrim cur ++ [] by simp]
      rw [List.append_nil, filter_nonWs_jsTrim]
  | cons line rest ih =>
    rw [chunkGo, flattenNl_cons]
    by_cases h : B < tok + estimateTokenCount line ∧ cur ≠ []
    · rw [if_pos h, List.flatten_cons, List.filter_append, filter_nonWs_jsTrim, ih]
      simp [List.filter_append, List.append_assoc]
    · rw [if_neg h, ih]
      simp [List.filter_append, List.append_assoc]

theorem filter_flatten_chunkDiff (d : List Char) (B : Nat) :
    ((chunkDiff d B).flatten).filter nonWs = d.filter nonWs := by
  rw [chunkDiff]
  by_cases h : estimateTokenCount d ≤ B
  · rw [if_pos h]
    simp
  · rw [if_neg h, filter_flatten_chunkGo, List.nil_append, flattenNl_splitNl,
      List.filter_append, filter_nonWs_nl, List.append_nil]

theorem filter_flatten_splitGo (lines : List (List Char)) (cur : List Char) :
    ((splitGo lines cur).flatten).filter nonWs
      = (cur ++ flattenNl lines).filter nonWs := by
  induction lines generalizing cur with
  | nil =>
    rw [splitGo, flattenNl_nil, List.append_nil]
    by_cases h : jsTrim cur = []
    · rw [if_pos h]
      rw [List.flatten_nil, List.filter_nil, filter_nonWs_nil_of_jsTrim_nil h]
    · rw [if_neg h]
      rw [show ([jsTrim cur] : List (List Char)).flatten = jsTrim cur ++ [] by simp]
      rw [List.append_nil, filter_nonWs_jsTrim]
  | cons line rest ih =>
    rw [splitGo, flattenNl_cons]
    by_cases h : startsWithHeader line = true
    · rw [if_pos h, List.flatten_append, List.filter_append, ih]
      by_cases hc : jsTrim cur = []
      · rw [if_pos hc]
        have hcur := filter_nonWs_nil_of_jsTrim_nil hc
        simp [List.filter_append, List.append_assoc, hcur]
      · rw [if_neg hc]
        rw [show ([jsTrim cur] : List (List Char)).flatten = jsTrim cur ++ [] by simp]
        rw [List.append_nil, filter_nonWs_jsTrim]
        simp [List.filter_append, List.append_assoc]
    · rw [if_neg h, ih]
      simp [List.filter_append, List.append_assoc]

theorem filter_flatten_splitDiffByFile (d : List Char) :
    ((splitDiffByFile d).flatten).filter nonWs = d.filter nonWs := by
  rw [splitDiffByFile, filter_flatten_splitGo, List.nil_append, flattenNl_splitNl,
    List.filter_append, filter_nonWs_nl, List.append_nil]

theorem filter_flatten_flatMap_chunkDiff (parts : List (List Char)) (B : Nat) :
    ((parts.flatMap (fun p => chunkDiff p B)).flatten).filter nonWs
      = (parts.flatten).filter nonWs := by
  induction parts with
  | nil => rfl
  | cons p rest ih =>
    rw [List.flatMap_cons, List.flatten_append, List.filter_append,
      filter_flatten_chunkDiff, List.flatten_cons, List.filter_append, ih]

theorem filter_flatten_computeChunks (d : List Char) (B : Nat) :
    ((computeChunks d B).flatten).filter nonWs = d.filter nonWs := by
  rw [computeChunks]
  by_cases h : (splitDiffByFile d).flatMap (fun fd => chunkDiff fd B) = []
  · rw [if_pos h, filter_flatten_chunkDiff]
  · rw [if_neg h, filter_flatten_flatMap_chunkDiff, filter_flatten_splitDiffByFile]

theorem flattenNl_append (a b : List (List Char)) :
    flattenNl (a ++ b) = flattenNl a ++ flattenNl b := by
  rw [flattenNl, flattenNl, flattenNl, List.map_append, List.flatten_append]

theorem flattenNl_eq_nil_iff (ls : List (List Char)) : flattenNl ls = [] ↔ ls = [] := by
  cases ls with
  | nil => simp [flattenNl_nil]
  | cons x xs =>
    rw [flattenNl_cons]
    constructor
    · intro h
      have := congrArg List.length h
      simp [nl] at this
    · intro h
      cases h

/-- Budget soundness of one produced chunk: it is the trim of a non-empty
run of source lines (each with its newline re-appended) whose accounted
cost — the sum of the per-line `estimateTokenCount` values, exactly the
`currentTokens` bookkeeping of the loop — is within budget, unless the run
is a single line that alone exceeds the budget. -/
def ChunkBudgetOk (B : Nat) (c : List Char) : Prop :=
  ∃ ls : List (List Char), ls ≠ [] ∧ c = jsTrim (flattenNl ls) ∧
    (((ls.map estimateTokenCount).sum ≤ B) ∨
      ∃ l, ls = [l] ∧ B < estimateTokenCount l)

theorem chunkGo_cost (B : Nat) (lines : List (List Char)) :
    ∀ (cur : List Char) (tok : Nat) (ls : List (List Char)),
      cur = flattenNl ls → tok = (ls.map estimateTokenCount).sum →
      (tok ≤ B ∨ ∃ l, ls = [l] ∧ B < estimateTokenCount l) →
      ∀ c ∈ chunkGo B lines cur tok, ChunkBudgetOk B c := by
  induction lines with
  | nil =>
    intro cur tok ls hcur htok hdisj c hc
    rw [chunkGo] at hc
    by_cases h : jsTrim cur = []
    · rw [if_pos h] at hc
      cases hc
    · rw [if_neg h] at hc
      have hcc : c = jsTrim cur := by
        cases hc with
        | head => rfl
        | tail _ hx => cases hx
      have hls : ls ≠ [] := by
        intro hx
        subst hx
        rw [flattenNl_nil] at hcur
        subst hcur
        exact h rfl
      exact ⟨ls, hls, by rw [hcc, hcur], by rw [← htok]; exact hdisj⟩
  | cons line rest ih =>
    intro cur tok ls hcur htok hdisj c hc
    rw [chunkGo] at hc
    by_cases h : B < tok + estimateTokenCount line ∧ cur ≠ []
    · rw [if_pos h] at hc
      cases hc with
      | head =>
        have hls : ls ≠ [] := by
          intro hx
          subst hx
          rw [flattenNl_nil] at hcur
          exact h.2 hcur
        exact ⟨ls, hls, by rw [hcur], by rw [← htok]; exact hdisj⟩
      | tail _ hx =>
        refine ih (line ++ nl) (estimateTokenCount line) [line] ?_ ?_ ?_ c hx
        · rw [flattenNl_cons, flattenNl_nil, List.append_nil]
        · simp
        · by_cases hl : estimateTokenCount line ≤ B
          · exact Or.inl hl
          · exact Or.inr ⟨line, rfl, Nat.lt_of_not_le hl⟩
    · rw [if_neg h] at hc
      refine ih (cur ++ line ++ nl) (tok + estimateTokenCount line) (ls ++ [line])
        ?_ ?_ ?_ c hc
      · rw [flattenNl_append, flattenNl_cons, flattenNl_nil, List.append_nil, hcur,
          List.append_assoc]
      · rw [htok]
        simp
      · by_cases hble : tok + estimateTokenCount line ≤ B
        · exact Or.inl hble
        · have hcurnil : cur = [] := by
            by_contra hne
            exact h ⟨Nat.lt_of_not_le hble, hne⟩
          have hlsnil : ls = [] := by
            rw [hcur] at hcurnil
            exact (flattenNl_eq_nil_iff ls).mp hcurnil
          subst hlsnil
          have htok0 : tok = 0 := by simpa using htok
          refine Or.inr ⟨line, by simp, ?_⟩
          rw [htok0] at hble
          simpa using Nat.lt_of_not_le hble

theorem chunkDiff_cost (d : List Char) (B : Nat) :
    ∀ c ∈ chunkDiff d B, estimateTokenCount c ≤ B ∨ ChunkBudgetOk B c := by
  intro c hc
  rw [chunkDiff] at hc
  by_cases h : estimateTokenCount d ≤ B
  · rw [if_pos h] at hc
    left
    have : c = d := by
      cases hc with
      | head => rfl
      | tail _ hx => cases hx
    rw [this]
    exact h
  · rw [if_neg h] at hc
    right
    exact chunkGo_cost B (splitNl d) [] 0 [] rfl rfl (Or.inl (Nat.zero_le B)) c hc

theorem length_trimL_le (l : List Char) : (trimL l).length ≤ l.length :=
  (List.dropWhile_sublist isWs).length_le

theorem length_jsTrim_le (l : List Char) : (jsTrim l).length ≤ l.length := by
  rw [jsTrim_eq_trimR_trimL]
  calc (trimR (trimL l)).length
      = ((trimL l).reverse.dropWhile isWs).length := by rw [trimR, List.length_reverse]
    _ ≤ (trimL l).reverse.length := (List.dropWhile_sublist isWs).length_le
    _ = (trimL l).length := List.length_reverse _
    _ ≤ l.length := length_trimL_le l

theorem length_flattenNl (ls : List (List Char)) :
    (flattenNl ls).length = (ls.map List.length).sum + ls.length := by
  induction ls with
  | nil => rfl
  | cons x xs ih =>
    rw [flattenNl_cons, List.length_append, ih]
    simp [nl]
    omega

theorem sum_len_le_four_sum_est (ls : List (List Char)) :
    (ls.map List.length).sum ≤ 4 * (ls.map estimateTokenCount).sum := by
  induction ls with
  | nil => simp
  | cons x xs ih =>
    simp only [List.map_cons, List.sum_cons, estimateTokenCount]
    omega

theorem sum_estimate_bound (ls : List (List Char)) :
    ((ls.map List.length).sum + ls.length + 3) / 4
      ≤ (ls.map estimateTokenCount).sum + (ls.length + 3) / 4 := by
  have h := sum_len_le_four_sum_est ls
  omega

/-- Cost overshoot bound: the estimated cost of a produced chunk exceeds the
accounted per-line cost only by the cost of the re-appended newlines, at
most `⌈k/4⌉` for a chunk of `k` lines. -/
theorem estimate_jsTrim_flattenNl_le (ls : List (List Char)) :
    estimateTokenCount (jsTrim (flattenNl ls))
      ≤ (ls.map estimateTokenCount).sum + (ls.length + 3) / 4 := by
  have h1 : estimateTokenCount (jsTrim (flattenNl ls))
      ≤ estimateTokenCount (flattenNl ls) := by
    rw [estimateTokenCount, estimateTokenCount]
    have := length_jsTrim_le (flattenNl ls)
    omega
  refine le_trans h1 ?_
  rw [estimateTokenCount, length_flattenNl]
  exact sum_estimate_bound ls

theorem jsTrim_ne_nil {l : List Char} (h : ∃ c ∈ l, isWs c = false) :
    jsTrim l ≠ [] := by
  intro hx
  obtain ⟨c, hc, hws⟩ := h
  rw [jsTrim_eq_nil_iff.mp hx c hc] at hws
  cases hws

theorem chunkGo_ne_nil (B : Nat) (lines : List (List Char))
    (h1 : ∀ line ∈ lines, ∃ c ∈ line, isWs c = false) :
    ∀ (cur : List Char) (tok : Nat),
      (cur = [] ∨ ∃ c ∈ cur, isWs c = false) →
      ∀ ch ∈ chunkGo B lines cur tok, ch ≠ [] := by
  induction lines with
  | nil =>
    intro cur tok _ ch hch
    rw [chunkGo] at hch
    by_cases h : jsTrim cur = []
    · rw [if_pos h] at hch
      cases hch
    · rw [if_neg h] at hch
      have : ch = jsTrim cur := by
        cases hch with
        | head => rfl
        | tail _ hx => cases hx
      rw [this]
      exact h
  | cons line rest ih =>
    intro cur tok hcur ch hch
    rw [chunkGo] at hch
    have hline := h1 line (List.mem_cons_self line rest)
    have hrest : ∀ l ∈ rest, ∃ c ∈ l, isWs c = false :=
      fun l hl => h1 l (List.mem_cons_of_mem line hl)
    by_cases h : B < tok + estimateTokenCount line ∧ cur ≠ []
    · rw [if_pos h] at hch
      cases hch with
      | head =>
        rcases hcur with hnil | hex
        · exact absurd hnil h.2
        · exact jsTrim_ne_nil hex
      | tail _ hx =>
        refine ih hrest (line ++ nl) (estimateTokenCount line) ?_ ch hx
        obtain ⟨c, hc, hws⟩ := hline
        exact Or.inr ⟨c, List.mem_append_left nl hc, hws⟩
    · rw [if_neg h] at hch
      refine ih hrest (cur ++ line ++ nl) (tok + estimateTokenCount line) ?_ ch hch
      obtain ⟨c, hc, hws⟩ := hline
      exact Or.inr ⟨c, by
        rw [List.append_assoc]
        exact List.mem_append_right cur (List.mem_append_left nl hc), hws⟩

theorem chunkDiff_ne_nil (d : List Char) (B : Nat)
    (h : ∀ line ∈ splitNl d, ∃ c ∈ line, isWs c = false) :
    ∀ ch ∈ chunkDiff d B, ch ≠ [] := by
  intro ch hch
  rw [chunkDiff] at hch
  by_cases hb : estimateTokenCount d ≤ B
  · rw [if_pos hb] at hch
    have hcd : ch = d := by
      cases hch with
      | head => rfl
      | tail _ hx => cases hx
    subst hcd
    intro hnil
    subst hnil
    obtain ⟨c, hc, _⟩ := h [] (by rw [show splitNl [] = [[]] from rfl]; exact List.mem_singleton.mpr rfl)
    cases hc
  · rw [if_neg hb] at hch
    exact chunkGo_ne_nil B (splitNl d) h [] 0 (Or.inl rfl) ch hch

/-! ## Lemmas about the change summarizer -/

theorem mem_insertDesc {x z : FileStat} {l : List FileStat} :
    z ∈ insertDesc x l ↔ z = x ∨ z ∈ l := by
  induction l with
  | nil => simp [insertDesc]
  | cons y ys ih =>
    rw [insertDesc]
    by_cases h : x.changes < y.changes
    · rw [if_pos h]
      simp only [List.mem_cons, ih]
      tauto
    · rw [if_neg h]
      exact List.mem_cons

theorem length_insertDesc (x : FileStat) (l : List FileStat) :
    (insertDesc x l).length = l.length + 1 := by
  induction l with
  | nil => rfl
  | cons y ys ih =>
    rw [insertDesc]
    by_cases h : x.changes < y.changes
    · rw [if_pos h, List.length_cons, ih, List.length_cons]
    · rw [if_neg h]
      rfl

theorem length_sortByChangesDesc (l : List FileStat) :
    (sortByChangesDesc l).length = l.length := by
  induction l with
  | nil => rfl
  | cons x xs ih =>
    rw [sortByChangesDesc, length_insertDesc, ih, List.length_cons]

theorem pairwise_insertDesc {x : FileStat} {l : List FileStat}
    (h : l.Pairwise (fun a b => b.changes ≤ a.changes)) :
    (insertDesc x l).Pairwise (fun a b => b.changes ≤ a.changes) := by
  induction l with
  | nil => simp [insertDesc]
  | cons y ys ih =>
    rw [insertDesc]
    obtain ⟨hy, hys⟩ := List.pairwise_cons.mp h
    by_cases hxy : x.changes < y.changes
    · rw [if_pos hxy]
      refine List.pairwise_cons.mpr ⟨?_, ih hys⟩
      intro z hz
      rcases mem_insertDesc.mp hz with rfl | hz2
      · exact Nat.le_of_lt hxy
      · exact hy z hz2
    · rw [if_neg hxy]
      refine List.pairwise_cons.mpr ⟨?_, h⟩
      intro z hz
      rcases List.mem_cons.mp hz with rfl | hz2
      · exact Nat.le_of_not_lt hxy
      · exact le_trans (hy z hz2) (Nat.le_of_not_lt hxy)

theorem pairwise_sortByChangesDesc (l : List FileStat) :
    (sortByChangesDesc l).Pairwise (fun a b => b.changes ≤ a.changes) := by
  induction l with
  | nil => simp [sortByChangesDesc]
  | cons x xs ih =>
    rw [sortByChangesDesc]
    exact pairwise_insertDesc ih

theorem filter_changes_insertDesc (c : Nat) (x : FileStat) (l : List FileStat) :
    (insertDesc x l).filter (fun f => f.changes == c)
      = if x.changes = c then x :: l.filter (fun f => f.changes == c)
        else l.filter (fun f => f.changes == c) := by
  induction l with
  | nil =>
    by_cases hx : x.changes = c
    · simp [insertDesc, List.filter_cons, hx]
    · simp [insertDesc, List.filter_cons, hx]
  | cons y ys ih =>
    rw [insertDesc]
    by_cases hxy : x.changes < y.changes
    · rw [if_pos hxy]
      by_cases hyc : y.changes = c
      · have hxc : ¬ x.changes = c := by omega
        simp [List.filter_cons, ih, hyc, hxc]
      · by_cases hxc : x.changes = c <;> simp [List.filter_cons, ih, hyc, hxc]
    · rw [if_neg hxy]
      by_cases hxc : x.changes = c <;> simp [List.filter_cons, hxc]

theorem filter_changes_sortByChangesDesc (c : Nat) (l : List FileStat) :
    (sortByChangesDesc l).filter (fun f => f.changes == c)
      = l.filter (fun f => f.changes == c) := by
  induction l with
  | nil => rfl
  | cons x xs ih =>
    rw [sortByChangesDesc, filter_changes_insertDesc, List.filter_cons, ih]
    by_cases hx : x.changes = c
    · rw [if_pos hx]
      simp [hx]
    · rw [if_neg hx]
      simp [hx]

/-! ## Lemmas about the post-processor length bound -/

theorem enforceMaxLength_length_le (m : List Char) (L : Nat) :
    (enforceMaxLength m L).length ≤ L + 3 := by
  simp only [enforceMaxLength]
  split_ifs with h1 h2 h3 h4 h5 <;>
    first
      | omega
      | (simp [List.length_take, List.length_append] <;> omega)

theorem mem_enforceMaxLength {c : Char} {m : List Char} {L : Nat}
    (h : c ∈ enforceMaxLength m L) : c ∈ m ∨ c = '.' := by
  simp only [enforceMaxLength] at h
  split_ifs at h with h1 h2 h3 h4 h5
  · exact Or.inl h
  · exact Or.inl (List.mem_of_mem_take (List.mem_of_mem_take h))
  · exact Or.inl (List.mem_of_mem_take (List.mem_of_mem_take h))
  · exact Or.inl (List.mem_of_mem_take (List.mem_of_mem_take h))
  · rcases List.mem_append.mp h with hm | hm
    · exact Or.inl (List.mem_of_mem_take hm)
    · right
      simpa using hm
  · exact Or.inl (List.mem_of_mem_take h)

/-! ## Lemmas about the orchestrator -/

/-- Usable choice texts of the call with index `n`: empty when the call
throws, otherwise the non-empty contents (`.filter(Boolean)`). -/
def oracleTexts (o : Oracle) (n : Nat) : List Msg :=
  match o n with
  | none => []
  | some ts => ts.filter (fun m => !m.isEmpty)

theorem fallbackCall_error_iff (o : Oracle) (L : Nat) (d : List Char) (st : List Msg) :
    (fallbackCall o L d st).1 = .error () ↔ oracleTexts o st.length = [] := by
  cases ho : o st.length with
  | none => simp [fallbackCall, oracleTexts, ho]
  | some ts =>
    cases ht : ts.filter (fun m => !m.isEmpty) with
    | nil => simp [fallbackCall, oracleTexts, ho, ht]
    | cons t tl => simp [fallbackCall, oracleTexts, ho, ht]

theorem synthesisStep_ok (o : Oracle) (msgs st : List Msg) :
    ∃ r, (synthesisStep o msgs st).1 = .ok r := by
  rcases hg : generateCommitMessage o st (combinedPrompt msgs) with ⟨fst, snd⟩
  cases fst with
  | ok r => exact ⟨r, by simp [synthesisStep, hg]⟩
  | error e => exact ⟨msgs, by simp [synthesisStep, hg]⟩

theorem synthesisStep_of_failure (o : Oracle) (msgs st : List Msg)
    (h : o st.length = none) :
    synthesisStep o msgs st = (.ok msgs, st ++ [combinedPrompt msgs]) := by
  simp [synthesisStep, generateCommitMessage, h]

theorem collectChunkMessages_sanitized (o : Oracle) (L : Nat) :
    ∀ (chunks : List Msg) (st : List Msg) (m : Msg),
      m ∈ (collectChunkMessages o L chunks st).1 → ∃ t, m = sanitizeMessage t := by
  intro chunks
  induction chunks with
  | nil =>
    intro st m hm
    rw [collectChunkMessages] at hm
    cases hm
  | cons c rest ih =>
    intro st m hm
    rw [collectChunkMessages] at hm
    cases ho : o st.length with
    | none =>
      rw [ho] at hm
      exact ih _ m hm
    | some texts =>
      simp only [ho] at hm
      cases ht : texts.filter (fun x => !x.isEmpty) with
      | nil =>
        rw [ht] at hm
        exact ih _ m hm
      | cons t tl =>
        rw [ht] at hm
        rcases List.mem_cons.mp hm with rfl | hm2
        · exact ⟨t, rfl⟩
        · exact ih _ m hm2

theorem mem_dedupeGo {m : Msg} : ∀ (l seen : List Msg), m ∈ dedupeGo seen l → m ∈ l := by
  intro l
  induction l with
  | nil => intro seen h; cases h
  | cons x xs ih =>
    intro seen h
    rw [dedupeGo] at h
    by_cases hx : x ∈ seen
    · rw [if_pos hx] at h
      exact List.mem_cons_of_mem x (ih _ h)
    · rw [if_neg hx] at h
      rcases List.mem_cons.mp h with rfl | h2
      · exact List.mem_cons_self m xs
      · exact List.mem_cons_of_mem x (ih _ h2)

theorem mem_deduplicateMessages {m : Msg} {l : List Msg}
    (h : m ∈ deduplicateMessages l) : m ∈ l := mem_dedupeGo l [] h

theorem generateCommitMessage_ok_sanitized {o : Oracle} {st : List Msg} {dd : Msg}
    {ms : List Msg} (h : (generateCommitMessage o st dd).1 = .ok ms) :
    ∀ m ∈ ms, ∃ t, m = sanitizeMessage t := by
  intro m hm
  rw [generateCommitMessage] at h
  cases ho : o st.length with
  | none =>
    rw [ho] at h
    cases h
  | some texts =>
    rw [ho] at h
    simp only [Except.ok.injEq] at h
    subst h
    by_cases he : ((texts.map sanitizeMessage).filter (fun m => !m.isEmpty)).isEmpty
    · rw [if_pos he] at hm
      cases hm
    · rw [if_neg he] at hm
      have h2 := List.mem_of_mem_filter (mem_deduplicateMessages hm)
      obtain ⟨t, _, ht⟩ := List.mem_map.mp h2
      exact ⟨t, ht.symm⟩

theorem generateCommitMessageFromChunks_ok_sanitized {o : Oracle} {d : List Char}
    {B L : Nat} {ms : List Msg}
    (h : (generateCommitMessageFromChunks o d B L).1 = .ok ms) :
    ∀ m ∈ ms, ∃ t, m = sanitizeMessage t := by
  intro m hm
  rw [generateCommitMessageFromChunks] at h
  by_cases h1 : (computeChunks d B).length = 1
  · rw [if_pos h1] at h
    exact generateCommitMessage_ok_sanitized h m hm
  · rw [if_neg h1] at h
    by_cases h2 : (collectChunkMessages o L (computeChunks d B) []).1.isEmpty
    · rw [if_pos h2] at h
      rw [fallbackCall] at h
      cases ho : o (collectChunkMessages o L (computeChunks d B) []).2.length with
      | none =>
        rw [ho] at h
        cases h
      | some texts =>
        simp only [ho] at h
        cases ht : texts.filter (fun x => !x.isEmpty) with
        | nil =>
          rw [ht] at h
          cases h
        | cons t tl =>
          rw [ht] at h
          simp only [Except.ok.injEq] at h
          subst h
          rcases List.mem_singleton.mp hm with rfl
          exact ⟨t, rfl⟩
    · rw [if_neg h2] at h
      by_cases h3 : 1 < (collectChunkMessages o L (computeChunks d B) []).1.length
      · rw [if_pos h3] at h
        rw [synthesisStep] at h
        rcases hg : generateCommitMessage o
            (collectChunkMessages o L (computeChunks d B) []).2
            (combinedPrompt (collectChunkMessages o L (computeChunks d B) []).1)
          with ⟨fst, snd⟩
        rw [hg] at h
        cases fst with
        | ok r =>
          simp only [Except.ok.injEq] at h
          subst h
          exact generateCommitMessage_ok_sanitized (by rw [hg]) m hm
        | error e =>
          simp only [Except.ok.injEq] at h
          subst h
          exact collectChunkMessages_sanitized o L _ _ m hm
      · rw [if_neg h3] at h
        simp only [Except.ok.injEq] at h
        subst h
        exact collectChunkMessages_sanitized o L _ _ m hm

theorem generateCommitMessageFromSummaryP6_noNewline {o : Oracle} {s : Msg} {L : Nat}
    {ms : List Msg} (h : (generateCommitMessageFromSummaryP6 o s L).1 = .ok ms) :
    ∀ m ∈ ms, ∀ c ∈ m, (c == '\n' || c == '\r') = false := by
  intro m hm c hc
  rw [generateCommitMessageFromSummaryP6] at h
  cases ho : o 0 with
  | none =>
    rw [ho] at h
    cases h
  | some texts =>
    simp only [ho] at h
    simp only [Except.ok.injEq] at h
    subst h
    have h1 := List.mem_of_mem_filter (mem_deduplicateMessages hm)
    obtain ⟨t, ht, hf⟩ := List.mem_map.mp h1
    have ht2 : ∃ t0, t = sanitizeMessageP6 t0 := by
      obtain ⟨t0, _, h0⟩ := List.mem_map.mp (List.mem_of_mem_filter ht)
      exact ⟨t0, h0.symm⟩
    obtain ⟨t0, rfl⟩ := ht2
    by_cases hcond : L * 11 < (sanitizeMessageP6 t0).length * 10
    · rw [if_pos hcond] at hf
      subst hf
      rcases mem_enforceMaxLength hc with hin | hdot
      · exact newline_not_mem_sanitizeMessageP6 hin
      · subst hdot
        rfl
    · rw [if_neg hcond] at hf
      subst hf
      exact newline_not_mem_sanitizeMessageP6 hc

end Lazycommit

namespace Lazycommit

/-! ## Concrete inputs for the claim witnesses and counterexamples -/

def dC1 : List Char := "a\n".data

def dC2 : List Char :=
  "diff --git a/f b/f\nabcdefgh\ndiff --git a/g b/g\nabcdefgh".data

/-- Oracle on which every call succeeds, each response carrying a single
empty content string (a well-formed HTTP 200 whose choice text is empty). -/
def oEmptyText : Oracle := fun _ => some [[]]

/-- Oracle on which the first call throws and all later calls succeed. -/
def oC2w : Oracle := fun n => if n = 0 then none else some ["fix: part".data]

def pC3 : List Char := "d".data

def qMsg : List Char :=
  "\"this generated commit message is far longer than the configured maximum of fifty\"".data

def oQuoted : Oracle := fun _ => some [qMsg]

def mPlain : List Char := "fix: handle empty diff".data

def oPlain : Oracle := fun _ => some ["fix: handle empty diff\n".data]

def dC4 : List Char := "aaaa\nbbbb".data

def dC5 : List Char :=
  "diff --git a/f b/f\nabcdefgh\ndiff --git a/g b/g\nabcdefgh".data

def oC5 : Oracle := fun _ => some ["fix: part".data]

def dC5w : List Char := "a".data

def oC5w : Oracle := fun _ => some ["fix: a".data]

def mC6 : List Char := List.replicate 16 'a'

def qC7 : List Char := "\"\"a\"\"".data

def dC9 : List Char := "ab\ncd".data

def dC10 : List Char := "abc".data

/-! ## The claims -/

/-- C1 (counterexample): concatenating the chunks of the partitioner does
not reconstruct the diff character for character — for the two-character
diff `"a\n"` the pipeline returns the single trimmed chunk `"a"`, so the
trailing newline is lost. -/
theorem c1_counterexample : (computeChunks dC1 4000).flatten ≠ dC1 := by decide

/-- C1 (amended): concatenating the chunks produced by the diff partitioner
(`splitDiffByFile` followed by `chunkDiff` per file segment, with the
whole-diff fallback) in output order preserves exactly the sequence of
non-whitespace characters of the diff; only whitespace at segment
boundaries may be dropped (each segment is `trim`med). -/
theorem c1_amended (d : List Char) (B : Nat) :
    ((computeChunks d B).flatten).filter nonWs = d.filter nonWs :=
  filter_flatten_computeChunks d B

/-- C2 (counterexample): the chunked path raises
`Failed to generate commit messages for any chunks` even when no completion
call failed — on `oEmptyText` every call succeeds but carries only an empty
choice text, so no chunk message is collected, the fallback yields no text
either, and the request errors although every call returned successfully. -/
theorem c2_counterexample :
    1 < (computeChunks dC2 2).length ∧
      (generateCommitMessageFromChunks oEmptyText dC2 2 50).1 = .error () ∧
      ∀ n, oEmptyText n ≠ none :=
  ⟨by decide, by rfl, fun n h => Option.noConfusion h⟩

/-- C2 (amended): in the chunked path with more than one chunk,
(1) if at least one chunk call yielded a usable message, the request
succeeds regardless of other chunks' failures; (2) the request raises an
error exactly when no chunk call yielded a usable (non-empty) choice text
and the subsequent file-name fallback call yielded none either; (3) if the
final synthesis call throws after at least two chunk messages were
produced, the unsynthesized list of chunk messages is returned. -/
theorem c2_amended (o : Oracle) (d : List Char) (B L : Nat)
    (h : 1 < (computeChunks d B).length) :
    ((collectChunkMessages o L (computeChunks d B) []).1 ≠ [] →
      ∃ r, (generateCommitMessageFromChunks o d B L).1 = .ok r) ∧
    ((generateCommitMessageFromChunks o d B L).1 = .error () ↔
      ((collectChunkMessages o L (computeChunks d B) []).1 = [] ∧
        oracleTexts o (collectChunkMessages o L (computeChunks d B) []).2.length = [])) ∧
    (1 < (collectChunkMessages o L (computeChunks d B) []).1.length →
      o (collectChunkMessages o L (computeChunks d B) []).2.length = none →
      generateCommitMessageFromChunks o d B L =
        (.ok (collectChunkMessages o L (computeChunks d B) []).1,
          (collectChunkMessages o L (computeChunks d B) []).2 ++
            [combinedPrompt (collectChunkMessages o L (computeChunks d B) []).1])) := by
  have hne : ¬ (computeChunks d B).length = 1 := by omega
  by_cases hE : (collectChunkMessages o L (computeChunks d B) []).1.isEmpty
  · have hnil : (collectChunkMessages o L (computeChunks d B) []).1 = [] :=
      List.isEmpty_iff.mp hE
    have heq : generateCommitMessageFromChunks o d B L =
        fallbackCall o L d (collectChunkMessages o L (computeChunks d B) []).2 := by
      rw [generateCommitMessageFromChunks, if_neg hne, if_pos hE]
    refine ⟨fun hx => absurd hnil hx, ?_, ?_⟩
    · rw [heq, fallbackCall_error_iff]
      constructor
      · intro hx
        exact ⟨hnil, hx⟩
      · intro hx
        exact hx.2
    · intro hlen _
      rw [hnil] at hlen
      cases hlen
  · have hne2 : (collectChunkMessages o L (computeChunks d B) []).1 ≠ [] := by
      simpa [List.isEmpty_iff] using hE
    by_cases hlen : 1 < (collectChunkMessages o L (computeChunks d B) []).1.length
    · have heq : generateCommitMessageFromChunks o d B L =
          synthesisStep o (collectChunkMessages o L (computeChunks d B) []).1
            (collectChunkMessages o L (computeChunks d B) []).2 := by
        rw [generateCommitMessageFromChunks, if_neg hne, if_neg hE, if_pos hlen]
      obtain ⟨r, hr⟩ := synthesisStep_ok o
        (collectChunkMessages o L (computeChunks d B) []).1
        (collectChunkMessages o L (computeChunks d B) []).2
      refine ⟨fun _ => ⟨r, by rw [heq]; exact hr⟩, ?_, ?_⟩
      · constructor
        · intro hx
          rw [heq, hr] at hx
          cases hx
        · intro hx
          exact absurd hx.1 hne2
      · intro _ hnone
        rw [heq, synthesisStep_of_failure o _ _ hnone]
    · have heq : generateCommitMessageFromChunks o d B L =
          (.ok (collectChunkMessages o L (computeChunks d B) []).1,
            (collectChunkMessages o L (computeChunks d B) []).2) := by
        rw [generateCommitMessageFromChunks, if_neg hne, if_neg hE, if_neg hlen]
      refine ⟨fun _ => ⟨(collectChunkMessages o L (computeChunks d B) []).1,
        by rw [heq]⟩, ?_, ?_⟩
      · constructor
        · intro hx
          rw [heq] at hx
          cases hx
        · intro hx
          exact absurd hx.1 hne2
      · intro hl _
        exact absurd hl hlen

/-- C2 (witness): a concrete run with four chunks whose first chunk call
throws and whose remaining calls succeed — the failure is skipped and the
request succeeds. -/
theorem c2_witness :
    1 < (computeChunks dC2 2).length ∧
      ∃ r, (generateCommitMessageFromChunks oC2w dC2 2 50).1 = .ok r :=
  ⟨by decide, (c2_amended oC2w dC2 2 50 (by decide)).1 (by decide)⟩

/-- C3 (counterexample): the direct generation path returns the model
output only newline-stripped — a quoted over-long content is returned with
its surrounding quotes and with length far above the configured maximum of
`50` (the default `max-length`), because `sanitizeMessage` of
`src/src/utils/openrouter.ts` strips no quotes and enforces no length. -/
theorem c3_counterexample :
    (generateCommitMessage oQuoted [] pC3).1 = .ok [qMsg] ∧
      50 < qMsg.length ∧ qMsg.head? = some '"' :=
  ⟨by rfl, by decide, by decide⟩

/-- C3 (amended): every message returned by the generation functions
(direct, chunked, and the part_006 summary path) contains no newline and no
carriage-return character; the length bound and the absence of surrounding
quotes do not hold in general. -/
theorem c3_amended (o : Oracle) (d s : List Char) (B L : Nat) :
    (∀ ms, (generateCommitMessage o [] d).1 = .ok ms →
      ∀ m ∈ ms, ∀ c ∈ m, (c == '\n' || c == '\r') = false) ∧
    (∀ ms, (generateCommitMessageFromChunks o d B L).1 = .ok ms →
      ∀ m ∈ ms, ∀ c ∈ m, (c == '\n' || c == '\r') = false) ∧
    (∀ ms, (generateCommitMessageFromSummaryP6 o s L).1 = .ok ms →
      ∀ m ∈ ms, ∀ c ∈ m, (c == '\n' || c == '\r') = false) := by
  refine ⟨?_, ?_, ?_⟩
  · intro ms h m hm c hc
    obtain ⟨t, rfl⟩ := generateCommitMessage_ok_sanitized h m hm
    exact newline_not_mem_sanitizeMessage hc
  · intro ms h m hm c hc
    obtain ⟨t, rfl⟩ := generateCommitMessageFromChunks_ok_sanitized h m hm
    exact newline_not_mem_sanitizeMessage hc
  · intro ms h
    exact generateCommitMessageFromSummaryP6_noNewline h

/-- C3 (witness): a concrete direct-path run whose model output ends in a
newline; the returned message is newline-free. -/
theorem c3_witness :
    (generateCommitMessage oPlain [] pC3).1 = .ok [mPlain] ∧
      mPlain.all (fun c => !(c == '\n' || c == '\r')) = true := by
  refine ⟨by rfl, List.all_eq_true.mpr ?_⟩
  intro c hc
  have h := (c3_amended oPlain pC3 pC3 2 50).1 [mPlain] (by rfl) mPlain
    (List.mem_singleton.mpr rfl) c hc
  rw [h]
  rfl

/-- C4 (counterexample): a chunk can exceed the token budget even when it
is not a single oversized source line — for budget `2` the diff
`"aaaa\nbbbb"` is returned as one two-line chunk of estimated cost `3`,
although each of its lines alone costs `1 ≤ 2`.  (The loop accounts costs
per line and never re-measures the assembled chunk, whose re-appended
newlines add to its length.) -/
theorem c4_counterexample :
    chunkDiff dC4 2 = [dC4] ∧ ¬ estimateTokenCount dC4 ≤ 2 ∧
      ((splitNl dC4).all (fun l => decide (estimateTokenCount l ≤ 2))) = true := by
  decide

/-- C4 (amended): every chunk produced by `chunkDiff d B` either fits the
budget outright, or is the trim of a non-empty run of source lines whose
accounted per-line cost (the loop's `currentTokens`) is at most `B` — in
which case the chunk's own estimated cost can exceed `B` only by the
newline overhead `⌈k/4⌉` for `k` lines — or is a single source line whose
own cost exceeds `B`.  Moreover no content is dropped (the non-whitespace
character sequence is preserved), and the function is total. -/
theorem c4_amended (d : List Char) (B : Nat) :
    (∀ c ∈ chunkDiff d B, estimateTokenCount c ≤ B ∨
      ∃ ls : List (List Char), ls ≠ [] ∧ c = jsTrim (flattenNl ls) ∧
        (((ls.map estimateTokenCount).sum ≤ B ∧
            estimateTokenCount c ≤ B + (ls.length + 3) / 4) ∨
          ∃ l, ls = [l] ∧ B < estimateTokenCount l)) ∧
    ((chunkDiff d B).flatten).filter nonWs = d.filter nonWs := by
  refine ⟨?_, filter_flatten_chunkDiff d B⟩
  intro c hc
  rcases chunkDiff_cost d B c hc with hle | ⟨ls, hne, hceq, hdisj⟩
  · exact Or.inl hle
  · refine Or.inr ⟨ls, hne, hceq, ?_⟩
    rcases hdisj with hsum | hsingle
    · refine Or.inl ⟨hsum, ?_⟩
      rw [hceq]
      calc estimateTokenCount (jsTrim (flattenNl ls))
          ≤ (ls.map estimateTokenCount).sum + (ls.length + 3) / 4 :=
            estimate_jsTrim_flattenNl_le ls
        _ ≤ B + (ls.length + 3) / 4 := by omega
    · exact Or.inr hsingle

/-- C4 (witness): the two-line chunk of the counterexample diff satisfies
the amended bound through its per-line accounting. -/
theorem c4_witness :
    dC4 ∈ chunkDiff dC4 2 ∧
      (estimateTokenCount dC4 ≤ 2 ∨
        ∃ ls : List (List Char), ls ≠ [] ∧ dC4 = jsTrim (flattenNl ls) ∧
          (((ls.map estimateTokenCount).sum ≤ 2 ∧
              estimateTokenCount dC4 ≤ 2 + (ls.length + 3) / 4) ∨
            ∃ l, ls = [l] ∧ 2 < estimateTokenCount l)) :=
  ⟨by decide, (c4_amended dC4 2).1 dC4 (by decide)⟩

/-- C5 (counterexample): a staged diff below the large-diff threshold does
not always lead to a single completion call with the whole diff — at the
default chunk size `6000` the two-file diff `dC5` (56 characters, far
below the `50000` threshold) is split at the file boundary into two
chunks, so two chunk calls plus one synthesis call are issued: three
calls, none of which carries the entire diff as payload. -/
theorem c5_counterexample :
    dC5.length ≤ 50000 ∧
      (lazycommitGenerate oC5 dC5 6000 50 none).2.length = 3 ∧
      (lazycommitGenerate oC5 dC5 6000 50 none).2 ≠ [dC5] := by
  refine ⟨by decide, by rfl, ?_⟩
  intro h
  have := congrArg List.length h
  rw [show (lazycommitGenerate oC5 dC5 6000 50 none).2.length = 3 from rfl] at this
  cases this

/-- C5 (amended): for every staged diff whose length is at most the
large-diff threshold `50000` and whose partition at the configured chunk
size yields exactly one chunk, the system performs direct generation:
the request reduces to `generateCommitMessage` on the whole diff, and
exactly one completion call is issued, whose user-turn payload is the
entire diff text. -/
theorem c5_amended (o : Oracle) (d : List Char) (B L : Nat) (compact : Option Msg)
    (h1 : d.length ≤ 50000) (h2 : (computeChunks d B).length = 1) :
    lazycommitGenerate o d B L compact = generateCommitMessage o [] d ∧
      (lazycommitGenerate o d B L compact).2 = [d] := by
  have hbig : ¬ 50000 < d.length := by omega
  have heq : lazycommitGenerate o d B L compact
      = generateCommitMessageFromChunks o d B L := by
    rw [lazycommitGenerate.eq_def, if_neg hbig]
  have heq2 : generateCommitMessageFromChunks o d B L
      = generateCommitMessage o [] d := by
    rw [generateCommitMessageFromChunks, if_pos h2]
  refine ⟨heq.trans heq2, ?_⟩
  rw [heq, heq2, generateCommitMessage]
  cases ho : o ([] : List Msg).length <;> simp [ho]

/-- C5 (witness): a one-character staged diff with the default chunk size
produces exactly one call whose payload is the diff itself. -/
theorem c5_witness :
    dC5w.length ≤ 50000 ∧ (computeChunks dC5w 4000).length = 1 ∧
      (lazycommitGenerate oC5w dC5w 4000 50 none).2 = [dC5w] :=
  ⟨by decide, by decide,
    (c5_amended oC5w dC5w 4000 50 none (by decide) (by decide)).2⟩

/-- C6 (counterexample): `enforceMaxLength` can exceed the configured
maximum — on sixteen `'a'`s with maximum `5` it returns `"aaaaa..."` of
length `8`, because the last-resort branch appends a three-character
ellipsis after the hard cut. -/
theorem c6_counterexample : ¬ ((enforceMaxLength mC6 5).length ≤ 5) := by decide

/-- C6 (amended): the result of `enforceMaxLength` has length at most the
configured maximum plus `3` (the appended ellipsis); every branch other
than the ellipsis branch stays within the maximum itself. -/
theorem c6_amended (m : List Char) (L : Nat) :
    (enforceMaxLength m L).length ≤ L + 3 :=
  enforceMaxLength_length_le m L

/-- C7 (counterexample): the part_006 `sanitizeMessage` is not idempotent —
on `""a""` one application strips one layer of quotes yielding `"a"`, and a
second application strips another, yielding `a`. -/
theorem c7_counterexample :
    sanitizeMessageP6 (sanitizeMessageP6 qC7) ≠ sanitizeMessageP6 qC7 := by decide

/-- C7 (amended): the `sanitizeMessage` of `src/src/utils/openrouter.ts`
(trim, newline removal, trailing-period strip — no quote stripping) is
idempotent on every string; the quote-stripping part_006 variant is not. -/
theorem c7_amended (l : List Char) :
    sanitizeMessage (sanitizeMessage l) = sanitizeMessage l := by
  rw [sanitizeMessage_comp,
    show sanitizeMessage l = dropTrailingPeriod (stripNewlines (jsTrim l)) from rfl]
  exact dropTrailingPeriod_idem _

/-- C8 (confirmed): the compact summary's top-N list is the prefix of the
stable descending sort by `changes` — it is descending, ties keep the
original input order (the sort leaves every equal-`changes` fiber of the
input untouched), and the reported omitted-file count plus the number of
listed entries equals the total number of changed files. -/
theorem c8_top_sorted (l : List FileStat) (N : Nat) :
    (topFiles l N).Pairwise (fun a b => b.changes ≤ a.changes) ∧
    (∀ c : Nat, (sortByChangesDesc l).filter (fun f => f.changes == c)
        = l.filter (fun f => f.changes == c)) ∧
    omittedCount l N + (topFiles l N).length = l.length := by
  refine ⟨?_, fun c => filter_changes_sortByChangesDesc c l, ?_⟩
  · exact (pairwise_sortByChangesDesc l).sublist (List.take_sublist _ _)
  · rw [omittedCount, topFiles, List.length_take, length_sortByChangesDesc]
    have := length_sortByChangesDesc l
    omega

/-- C9 (counterexample): `chunkDiff` can return an empty chunk — on the
empty diff the fast path returns the diff itself as the single (empty)
chunk. -/
theorem c9_counterexample : chunkDiff ([] : List Char) 4000 = [[]] := by decide

/-- C9 (amended): every chunk returned by `chunkDiff` is non-empty,
provided every line of the diff contains at least one non-whitespace
character (which also forces the diff itself to be non-empty); chunks
assembled from whitespace-only line runs, and the empty diff, are the only
sources of empty chunks. -/
theorem c9_amended (d : List Char) (B : Nat)
    (h : ∀ line ∈ splitNl d, ∃ c ∈ line, isWs c = false) :
    ∀ ch ∈ chunkDiff d B, ch ≠ [] :=
  chunkDiff_ne_nil d B h

/-- C9 (witness): the two-line diff `"ab\ncd"` at budget `1` splits into
two chunks, each non-empty. -/
theorem c9_witness :
    (∀ line ∈ splitNl dC9, ∃ c ∈ line, isWs c = false) ∧
      ("ab".data ∈ chunkDiff dC9 1 ∧ "ab".data ≠ ([] : List Char)) :=
  ⟨by decide, by decide, c9_amended dC9 1 (by decide) ("ab".data) (by decide)⟩

/-- C10 (confirmed): when the estimated token count of the diff is within
the budget, `chunkDiff` returns exactly the one-element list holding the
diff unmodified — no trimming and no line re-joining happens on this
path. -/
theorem c10_identity (d : List Char) (B : Nat)
    (h : estimateTokenCount d ≤ B) : chunkDiff d B = [d] := by
  rw [chunkDiff, if_pos h]

/-- C10 (witness): a three-character diff at the default budget. -/
theorem c10_witness :
    estimateTokenCount dC10 ≤ 4000 ∧ chunkDiff dC10 4000 = [dC10] :=
  ⟨by decide, c10_identity dC10 4000 (by decide)⟩

end Lazycommit
